import Mathlib

/-!
# Face catalog engine: formalisation

A shallow embedding of the face-catalog engine described in `spec.md` of this
repository.  The repository excerpt under `src/` contains only the HTTP
boundary (`face.controller.ts`); the engine itself — the Embedding Index, the
Face Store, the Person Cluster Manager, the Identification Engine — is
specified but its code is not part of the excerpt, so those components are
modelled from the spec (each such definition is marked `Modelled from the
spec:`).  The controller's permission table is embedded directly from
`src/server/src/controllers/face.controller.ts`.

Real embeddings are floating-point vectors; we embed them as vectors of
rationals.  Cosine similarity `dot u v / (‖u‖ * ‖v‖)` is irrational in
general, so a similarity value is represented exactly as a pair
`(num, den)` standing for `num / √den` with `den > 0`; comparisons on such
values are decided by sign analysis and squaring, which is exact.
-/

/-- Error taxonomy, modelled from the spec (§7): `NotFound`, `InvalidInput`
(bounding box, empty upload, dimension mismatch), `Conflict` (cross-account
assignment, orphan-would-result), `Unavailable`. -/
inductive Err where
  | NotFound
  | InvalidBoundingBox
  | DimensionMismatch
  | CrossAccountAssignment
  | PersonWouldBeOrphaned
  | EmptyUpload
  | ModelUnavailable
deriving DecidableEq, Repr

/-- Dot product of two embedding vectors (componentwise product, summed;
extra components of the longer vector are ignored, as both vectors always
have the configured dimension `D` in well-formed states). -/
def dot (u v : List ℚ) : ℚ := (List.zipWith (· * ·) u v).sum

theorem dot_nil (v : List ℚ) : dot [] v = 0 := rfl

theorem dot_cons (a b : ℚ) (u v : List ℚ) :
    dot (a :: u) (b :: v) = a * b + dot u v := by
  simp [dot, List.zipWith]

theorem dot_self_nonneg (v : List ℚ) : 0 ≤ dot v v := by
  induction v with
  | nil => simp [dot]
  | cons a v ih =>
      rw [dot_cons]
      nlinarith [sq_nonneg a]

/-- Cauchy–Schwarz for the dot product on rational vectors. -/
theorem dot_sq_le (u v : List ℚ) : dot u v ^ 2 ≤ dot u u * dot v v := by
  induction u generalizing v with
  | nil => simp [dot]
  | cons a u ih =>
      cases v with
      | nil => simp [dot]
      | cons b v =>
          rw [dot_cons, dot_cons, dot_cons]
          have huu := dot_self_nonneg u
          have hvv := dot_self_nonneg v
          have h := ih v
          rcases lt_or_eq_of_le hvv with hv | hv
          · nlinarith [sq_nonneg (a * dot v v - b * dot u v),
              mul_nonneg huu hvv, mul_pos hv hv]
          · have hd : dot u v = 0 := by nlinarith [sq_nonneg (dot u v)]
            rw [hd, ← hv]
            nlinarith [mul_nonneg huu (mul_self_nonneg b)]

/-- An exactly-represented similarity value: `num / √den` with `den > 0`. -/
structure Sim where
  num : ℚ
  den : ℚ
  den_pos : 0 < den

/-- Order on similarity values, decided by sign analysis and squaring:
`a.num / √a.den ≤ b.num / √b.den`. -/
def Sim.Le (a b : Sim) : Prop :=
  if a.num < 0 then
    if b.num < 0 then b.num ^ 2 * a.den ≤ a.num ^ 2 * b.den else True
  else
    if b.num < 0 then False else a.num ^ 2 * b.den ≤ b.num ^ 2 * a.den

instance (a b : Sim) : Decidable (Sim.Le a b) := by
  unfold Sim.Le; infer_instance

theorem Sim.leRefl (a : Sim) : Sim.Le a a := by
  unfold Sim.Le; split_ifs <;> simp

theorem Sim.leTotal (a b : Sim) : Sim.Le a b ∨ Sim.Le b a := by
  unfold Sim.Le
  rcases lt_or_le a.num 0 with ha | ha <;> rcases lt_or_le b.num 0 with hb | hb
  · rw [if_pos ha, if_pos hb, if_pos hb, if_pos ha]
    exact le_total _ _
  · left; rw [if_pos ha, if_neg (not_lt.2 hb)]; trivial
  · right; rw [if_pos hb, if_neg (not_lt.2 ha)]; trivial
  · rw [if_neg (not_lt.2 ha), if_neg (not_lt.2 hb), if_neg (not_lt.2 hb),
      if_neg (not_lt.2 ha)]
    exact le_total _ _

theorem Sim.leTrans {a b c : Sim} (hab : Sim.Le a b) (hbc : Sim.Le b c) :
    Sim.Le a c := by
  have hpa := a.den_pos
  have hpb := b.den_pos
  have hpc := c.den_pos
  unfold Sim.Le at hab hbc ⊢
  split_ifs at hab hbc ⊢ <;>
    first
      | trivial
      | exact hab.elim
      | exact hbc.elim
      | nlinarith [mul_le_mul_of_nonneg_right hab (le_of_lt hpc),
          mul_le_mul_of_nonneg_right hbc (le_of_lt hpa)]

/-- Strict order on similarity values. -/
def Sim.Lt (a b : Sim) : Prop := Sim.Le a b ∧ ¬ Sim.Le b a

/-- Two similarity representations denote the same real value. -/
def Sim.Equiv (a b : Sim) : Prop := Sim.Le a b ∧ Sim.Le b a

instance (a b : Sim) : Decidable (Sim.Lt a b) := by unfold Sim.Lt; infer_instance

instance (a b : Sim) : Decidable (Sim.Equiv a b) := by
  unfold Sim.Equiv; infer_instance

/-- The similarity value of two embedding vectors: exact representation of
their cosine similarity.  A zero vector has no direction; its similarity is
totalised to `0` (the spec leaves this case unspecified). -/
def simOf (u v : List ℚ) : Sim :=
  if h : 0 < dot u u * dot v v then ⟨dot u v, dot u u * dot v v, h⟩
  else ⟨0, 1, one_pos⟩

/-- A rational similarity threshold `t`, as a similarity value (`t / √1`). -/
def thresholdSim (t : ℚ) : Sim := ⟨t, 1, one_pos⟩

/-- The similarity value `1.0`. -/
def simOne : Sim := thresholdSim 1

/-- Cosine similarity never exceeds `1` (Cauchy–Schwarz). -/
theorem simOf_le_one (u v : List ℚ) : Sim.Le (simOf u v) simOne := by
  unfold simOf
  split
  · rename_i h
    unfold Sim.Le simOne thresholdSim
    simp only
    split
    · simp
    · simp only [if_neg (by norm_num : ¬ (1:ℚ) < 0)]
      have := dot_sq_le u v
      nlinarith
  · unfold Sim.Le simOne thresholdSim
    norm_num

/-- The cosine similarity of a nonzero vector with itself is exactly `1`. -/
theorem simOf_self (v : List ℚ) (hv : 0 < dot v v) :
    Sim.Equiv (simOf v v) simOne := by
  have hd : 0 < dot v v * dot v v := mul_pos hv hv
  unfold simOf
  rw [dif_pos hd]
  constructor
  · unfold Sim.Le simOne thresholdSim
    simp only [if_neg (not_lt.2 (le_of_lt hv)), if_neg (by norm_num : ¬ (1:ℚ) < 0)]
    ring_nf
    nlinarith
  · unfold Sim.Le simOne thresholdSim
    simp only [if_neg (by norm_num : ¬ (1:ℚ) < 0), if_neg (not_lt.2 (le_of_lt hv))]
    nlinarith

/-- One record of the Embedding Index.  Modelled from the spec:
"Embedding Index Entry: (account_id, face_id, vector)". -/
structure IndexEntry where
  accountId : Nat
  faceId : Nat
  vec : List ℚ
deriving DecidableEq, Repr

namespace EmbeddingIndex

/-- Modelled from the spec: `insert(account_id, face_id, vector)` adds the
vector to the account-scoped index; fails with `DimensionMismatch` if the
vector length differs from the configured dimension `D`.  New entries are
appended, so list position is insertion order. -/
def insert (D : Nat) (idx : List IndexEntry) (accountId faceId : Nat)
    (v : List ℚ) : Except Err (List IndexEntry) :=
  if v.length = D then .ok (idx ++ [⟨accountId, faceId, v⟩])
  else .error .DimensionMismatch

/-- Modelled from the spec: `remove(face_id)` removes a vector; no-op (not an
error) if absent. -/
def remove (idx : List IndexEntry) (faceId : Nat) : List IndexEntry :=
  idx.filter (fun e => e.faceId ≠ faceId)

end EmbeddingIndex

/-- `remove` on a face id with no entry leaves the index unchanged. -/
theorem remove_absent (idx : List IndexEntry) (fid : Nat)
    (h : ∀ e ∈ idx, e.faceId ≠ fid) : EmbeddingIndex.remove idx fid = idx := by
  unfold EmbeddingIndex.remove
  rw [List.filter_eq_self]
  intro e he
  simp [h e he]

/-- A scored candidate inside `query_knn`: the entry's insertion position in
the index, its face id, and its similarity to the query vector. -/
structure Cand where
  pos : Nat
  faceId : Nat
  sim : Sim

/-- Ranking order of `query_knn` (spec §4.1): similarity descending, ties
broken by insertion order, earliest first. -/
def CandLe (a b : Cand) : Prop :=
  Sim.Lt b.sim a.sim ∨ (Sim.Equiv a.sim b.sim ∧ a.pos ≤ b.pos)

instance (a b : Cand) : Decidable (CandLe a b) := by
  unfold CandLe; infer_instance

theorem candLe_trans {a b c : Cand} (hab : CandLe a b) (hbc : CandLe b c) :
    CandLe a c := by
  rcases hab with hab | ⟨hab, hpab⟩ <;> rcases hbc with hbc | ⟨hbc, hpbc⟩
  · exact Or.inl ⟨Sim.leTrans hbc.1 hab.1, fun h => hab.2 (Sim.leTrans h hbc.1)⟩
  · exact Or.inl ⟨Sim.leTrans hbc.2 hab.1, fun h => hab.2 (Sim.leTrans h hbc.2)⟩
  · exact Or.inl ⟨Sim.leTrans hbc.1 hab.2, fun h => hbc.2 (Sim.leTrans hab.2 h)⟩
  · exact Or.inr ⟨⟨Sim.leTrans hab.1 hbc.1, Sim.leTrans hbc.2 hab.2⟩,
      le_trans hpab hpbc⟩

theorem candLe_total (a b : Cand) : CandLe a b ∨ CandLe b a := by
  by_cases h1 : Sim.Le a.sim b.sim <;> by_cases h2 : Sim.Le b.sim a.sim
  · rcases le_total a.pos b.pos with hp | hp
    · exact Or.inl (Or.inr ⟨⟨h1, h2⟩, hp⟩)
    · exact Or.inr (Or.inr ⟨⟨h2, h1⟩, hp⟩)
  · exact Or.inr (Or.inl ⟨h1, h2⟩)
  · exact Or.inl (Or.inl ⟨h2, h1⟩)
  · rcases Sim.leTotal a.sim b.sim with h | h
    · exact absurd h h1
    · exact absurd h h2

theorem candLe_trans_bool (a b c : Cand) (hab : decide (CandLe a b) = true)
    (hbc : decide (CandLe b c) = true) : decide (CandLe a c) = true := by
  rw [decide_eq_true_eq] at *
  exact candLe_trans hab hbc

theorem candLe_total_bool (a b : Cand) :
    (decide (CandLe a b) || decide (CandLe b a)) = true := by
  rw [Bool.or_eq_true, decide_eq_true_eq, decide_eq_true_eq]
  exact candLe_total a b

namespace EmbeddingIndex

/-- The account-scoped candidate list for a query vector: every entry of the
account, tagged with its insertion position and its similarity to the query. -/
def candidates (idx : List IndexEntry) (accountId : Nat) (q : List ℚ) :
    List Cand :=
  idx.enum.filterMap fun p =>
    if p.2.accountId = accountId then some ⟨p.1, p.2.faceId, simOf p.2.vec q⟩
    else none

/-- The ranked, thresholded, truncated candidate list of a k-nearest-neighbour
query.  Modelled from the spec: "returns up to `k` (face_id, similarity) pairs
with similarity ≥ `min_similarity`, ordered by similarity descending, ties
broken by insertion order (earliest first)". -/
def query_knnCands (idx : List IndexEntry) (accountId : Nat) (q : List ℚ)
    (k : Nat) (minSimilarity : ℚ) : List Cand :=
  (((candidates idx accountId q).filter
      (fun c => decide (Sim.Le (thresholdSim minSimilarity) c.sim))).mergeSort
    (fun a b => decide (CandLe a b))).take k

/-- Modelled from the spec: `query_knn(account_id, vector, k, min_similarity)`
returns the `(face_id, similarity)` pairs of the ranked candidate list. -/
def query_knn (idx : List IndexEntry) (accountId : Nat) (q : List ℚ)
    (k : Nat) (minSimilarity : ℚ) : List (Nat × Sim) :=
  (query_knnCands idx accountId q k minSimilarity).map fun c => (c.faceId, c.sim)

end EmbeddingIndex

theorem filterMap_map_sublist {α β γ : Type} (g : α → Option β) (f : β → γ)
    (f' : α → γ) (hg : ∀ a b, g a = some b → f b = f' a) (l : List α) :
    ((l.filterMap g).map f).Sublist (l.map f') := by
  induction l with
  | nil => simp
  | cons a l ih =>
      rw [List.filterMap_cons, List.map_cons]
      cases hga : g a with
      | none => exact ih.cons (f' a)
      | some b => rw [List.map_cons, hg a b hga]; exact ih.cons₂ (f' a)

theorem candidates_pos_nodup (idx : List IndexEntry) (acc : Nat) (q : List ℚ) :
    ((EmbeddingIndex.candidates idx acc q).map Cand.pos).Nodup := by
  have h : ((EmbeddingIndex.candidates idx acc q).map Cand.pos).Sublist
      (idx.enum.map Prod.fst) := by
    apply filterMap_map_sublist
    intro p c hp
    by_cases hacc : p.2.accountId = acc
    · simp only [if_pos hacc] at hp
      cases hp
      rfl
    · simp [if_neg hacc] at hp
  rw [List.enum_map_fst] at h
  exact h.nodup (List.nodup_range _)

theorem mem_candidates {idx : List IndexEntry} {acc : Nat} {q : List ℚ}
    {c : Cand} (hc : c ∈ EmbeddingIndex.candidates idx acc q) :
    ∃ e, idx[c.pos]? = some e ∧ e.faceId = c.faceId ∧ e.accountId = acc ∧
      c.sim = simOf e.vec q := by
  rw [EmbeddingIndex.candidates, List.mem_filterMap] at hc
  obtain ⟨⟨i, e⟩, hmem, heq⟩ := hc
  by_cases hacc : e.accountId = acc
  · simp only [if_pos hacc] at heq
    cases heq
    obtain ⟨hlt, hget⟩ := List.mem_enum hmem
    refine ⟨e, ?_, rfl, hacc, rfl⟩
    rw [List.getElem?_eq_getElem hlt, ← hget]
  · simp [if_neg hacc] at heq

/-- C2: `query_knn` returns at most `k` `(face_id, similarity)` pairs, each
pair's similarity is at least `min_similarity`, the pairs are exactly the
projections of the ranked candidate list, the candidates are ordered by
similarity strictly descending with ties broken by insertion position
(earliest inserted first), and every candidate comes from an entry of the
queried account sitting at that insertion position of the index. -/
theorem c2_query_knn_contract (idx : List IndexEntry) (acc : Nat) (q : List ℚ)
    (k : Nat) (t : ℚ) :
    (EmbeddingIndex.query_knn idx acc q k t).length ≤ k ∧
    (∀ p ∈ EmbeddingIndex.query_knn idx acc q k t,
        Sim.Le (thresholdSim t) p.2) ∧
    EmbeddingIndex.query_knn idx acc q k t
      = (EmbeddingIndex.query_knnCands idx acc q k t).map
          (fun c => (c.faceId, c.sim)) ∧
    (∀ c ∈ EmbeddingIndex.query_knnCands idx acc q k t,
        Sim.Le (thresholdSim t) c.sim ∧
        ∃ e, idx[c.pos]? = some e ∧ e.faceId = c.faceId ∧ e.accountId = acc ∧
          c.sim = simOf e.vec q) ∧
    List.Pairwise
      (fun a b => Sim.Lt b.sim a.sim ∨ (Sim.Equiv a.sim b.sim ∧ a.pos < b.pos))
      (EmbeddingIndex.query_knnCands idx acc q k t) := by
  have hmemCands : ∀ c ∈ EmbeddingIndex.query_knnCands idx acc q k t,
      c ∈ (EmbeddingIndex.candidates idx acc q).filter
        (fun c => decide (Sim.Le (thresholdSim t) c.sim)) := by
    intro c hc
    have hc1 := (List.take_sublist _ _).subset hc
    exact (List.mergeSort_perm _ _).subset hc1
  have hfacts : ∀ c ∈ EmbeddingIndex.query_knnCands idx acc q k t,
      Sim.Le (thresholdSim t) c.sim ∧
      ∃ e, idx[c.pos]? = some e ∧ e.faceId = c.faceId ∧ e.accountId = acc ∧
        c.sim = simOf e.vec q := by
    intro c hc
    obtain ⟨hcand, hpred⟩ := List.mem_filter.mp (hmemCands c hc)
    exact ⟨decide_eq_true_eq.mp hpred, mem_candidates hcand⟩
  refine ⟨?_, ?_, rfl, hfacts, ?_⟩
  · rw [EmbeddingIndex.query_knn, List.length_map,
      EmbeddingIndex.query_knnCands, List.length_take]
    exact min_le_left _ _
  · intro p hp
    rw [EmbeddingIndex.query_knn, List.mem_map] at hp
    obtain ⟨c, hc, hpc⟩ := hp
    cases hpc
    exact (hfacts c hc).1
  · have hsorted := List.sorted_mergeSort candLe_trans_bool candLe_total_bool
      ((EmbeddingIndex.candidates idx acc q).filter
        (fun c => decide (Sim.Le (thresholdSim t) c.sim)))
    have hsorted' := hsorted.imp (fun h => decide_eq_true_eq.mp h)
    have hsortedL : List.Pairwise CandLe
        (EmbeddingIndex.query_knnCands idx acc q k t) :=
      hsorted'.sublist (List.take_sublist _ _)
    have hsubF : (((EmbeddingIndex.candidates idx acc q).filter
          (fun c => decide (Sim.Le (thresholdSim t) c.sim))).map Cand.pos).Sublist
        ((EmbeddingIndex.candidates idx acc q).map Cand.pos) :=
      (List.filter_sublist _).map _
    have hnodupF := hsubF.nodup (candidates_pos_nodup idx acc q)
    have hpermM := ((List.mergeSort_perm
      ((EmbeddingIndex.candidates idx acc q).filter
        (fun c => decide (Sim.Le (thresholdSim t) c.sim)))
      (fun a b => decide (CandLe a b))).map Cand.pos)
    have hnodupM := hpermM.symm.nodup hnodupF
    have hnodupL : ((EmbeddingIndex.query_knnCands idx acc q k t).map
        Cand.pos).Nodup := by
      rw [EmbeddingIndex.query_knnCands, List.map_take]
      exact (List.take_sublist _ _).nodup hnodupM
    have hne : List.Pairwise (fun a b : Cand => a.pos ≠ b.pos)
        (EmbeddingIndex.query_knnCands idx acc q k t) :=
      List.pairwise_map.mp hnodupL
    refine (hsortedL.and hne).imp ?_
    intro a b hab
    obtain ⟨hle, hne'⟩ := hab
    rcases hle with h | ⟨he, hp⟩
    · exact Or.inl h
    · exact Or.inr ⟨he, lt_of_le_of_ne hp hne'⟩

/-- C9: `remove(face_id)` on the Embedding Index is a no-op, not an error,
when no entry for `face_id` is present: the index is returned unchanged. -/
theorem c9_remove_absent_noop (idx : List IndexEntry) (fid : Nat)
    (h : ∀ e ∈ idx, e.faceId ≠ fid) :
    EmbeddingIndex.remove idx fid = idx :=
  remove_absent idx fid h

/-- Witness for C9 at a concrete index lacking the removed id. -/
theorem c9_remove_absent_noop_witness :
    (∀ e ∈ [IndexEntry.mk 7 1 []], e.faceId ≠ 2) ∧
    EmbeddingIndex.remove [IndexEntry.mk 7 1 []] 2 = [IndexEntry.mk 7 1 []] :=
  ⟨by decide, c9_remove_absent_noop [IndexEntry.mk 7 1 []] 2 (by decide)⟩

/-- Bounding box (§3): `x1 < x2`, `y1 < y2`, image-relative coordinates. -/
structure BBox where
  x1 : ℚ
  y1 : ℚ
  x2 : ℚ
  y2 : ℚ
deriving DecidableEq, Repr

/-- Face provenance (§3): created manually or by detection. -/
inductive FaceSource where
  | manual
  | detected
deriving DecidableEq, Repr

/-- Face record.  Modelled from the spec (§3): identifier, owning asset
identifier, bounding box, embedding vector, optional assigned person
identifier, source, creation timestamp; the owning account is carried for
the cross-account checks of §4.3. -/
structure Face where
  faceId : Nat
  assetId : Nat
  accountId : Nat
  bbox : BBox
  embedding : List ℚ
  personId : Option Nat
  source : FaceSource
  createdAt : Nat
deriving DecidableEq, Repr

/-- Person record.  Modelled from the spec (§3): identifier, account
identifier, display name (`none` = auto-clustered/unnamed), representative
face identifier, derived face count. -/
structure Person where
  personId : Nat
  accountId : Nat
  name : Option String
  representativeFaceId : Option Nat
  faceCount : Nat
deriving DecidableEq, Repr

/-- The catalog state: Face Store, Person set, Embedding Index, fresh-id
allocators and the account's configured embedding dimension `D`. -/
structure Catalog where
  faces : List Face
  persons : List Person
  index : List IndexEntry
  nextFaceId : Nat
  nextPersonId : Nat
  dim : Nat
deriving Repr

/-- Face lookup by identifier. -/
def findFace (st : Catalog) (fid : Nat) : Option Face :=
  st.faces.find? (fun f => f.faceId = fid)

/-- Person lookup by identifier. -/
def findPerson (st : Catalog) (pid : Nat) : Option Person :=
  st.persons.find? (fun p => p.personId = pid)

/-- Number of faces whose person reference points to `pid`. -/
def refCount (pid : Nat) (faces : List Face) : Nat :=
  faces.countP (fun f => f.personId = some pid)

/-- Rewrite one face's person pointer. -/
def setFacePerson (fid : Nat) (po : Option Nat) (faces : List Face) :
    List Face :=
  faces.map fun f => if f.faceId = fid then { f with personId := po } else f

/-- Increment the face count of the person `pid`. -/
def incCount (pid : Nat) (ps : List Person) : List Person :=
  ps.map fun p =>
    if p.personId = pid then { p with faceCount := p.faceCount + 1 } else p

/-- Decrement the face count of the person `pid` and garbage-collect it when
it becomes empty and unnamed (spec §4.3). -/
def decCountGC (pid : Nat) (ps : List Person) : List Person :=
  ps.filterMap fun p =>
    if p.personId = pid then
      if p.faceCount - 1 = 0 ∧ p.name = none then none
      else some { p with faceCount := p.faceCount - 1 }
    else some p

/-- The invariant of spec §4.3, enforced after every mutation: every person's
`face_count` equals the number of faces referencing it, and no face
references a nonexistent person. -/
def Consistent (st : Catalog) : Prop :=
  (∀ p ∈ st.persons, p.faceCount = refCount p.personId st.faces) ∧
  (∀ f ∈ st.faces, ∀ pid, f.personId = some pid →
    ∃ p ∈ st.persons, p.personId = pid)

/-- Structural well-formedness: identifiers are unique and below the
allocators' next fresh value. -/
def WF (st : Catalog) : Prop :=
  (st.faces.map Face.faceId).Nodup ∧
  (st.persons.map Person.personId).Nodup ∧
  (∀ p ∈ st.persons, p.personId < st.nextPersonId) ∧
  (∀ f ∈ st.faces, f.faceId < st.nextFaceId)

instance (st : Catalog) : Decidable (Consistent st) := by
  unfold Consistent; infer_instance

instance (st : Catalog) : Decidable (WF st) := by
  unfold WF; infer_instance

/-- The person-side effect of detaching a face whose previous assignment was
`old`: decrement the previous person's count and garbage-collect it if it
becomes empty and unnamed (spec §4.3); no person is touched when the face
was unassigned. -/
def personsAfterDetach (old : Option Nat) (ps : List Person) : List Person :=
  match old with
  | none => ps
  | some o => decCountGC o ps

/-- The person-side effect of moving a face's pointer from `old` onto the
target `pid`: increment the target, then decrement (and possibly
garbage-collect) the previous person (spec §4.3). -/
def personsAfterMove (old : Option Nat) (pid : Nat) (ps : List Person) :
    List Person :=
  personsAfterDetach old (incCount pid ps)

namespace PersonClusterManager

/-- Modelled from the spec (§4.3): `assign(face_id, person_id)` sets
`Face.person_id`, increments the target person's face count, decrements and
possibly garbage-collects the previous person if it becomes empty and
unnamed; fails with `CrossAccountAssignment` if the face and person belong
to different accounts. -/
def assign (st : Catalog) (fid pid : Nat) : Except Err Catalog :=
  match findFace st fid with
  | none => .error .NotFound
  | some f =>
    match findPerson st pid with
    | none => .error .NotFound
    | some p =>
      if f.accountId = p.accountId then
        .ok { st with faces := setFacePerson fid (some pid) st.faces,
                      persons := personsAfterMove f.personId pid st.persons }
      else .error .CrossAccountAssignment

/-- Modelled from the spec (§4.3): `reassign(face_id, target_person_id)` is
`assign` plus validation that the target exists and belongs to the same
account; returns the updated target person including its new face count. -/
def reassign (st : Catalog) (fid pid : Nat) : Except Err (Person × Catalog) :=
  match assign st fid pid with
  | .error e => .error e
  | .ok st' =>
    match findPerson st' pid with
    | some p => .ok (p, st')
    | none => .error .NotFound

/-- Modelled from the spec (§4.3): `detach(face_id)` sets `Face.person_id` to
null, decrements the source person's face count, garbage-collects it if
empty and unnamed. -/
def detach (st : Catalog) (fid : Nat) : Except Err Catalog :=
  match findFace st fid with
  | none => .error .NotFound
  | some f =>
    .ok { st with faces := setFacePerson fid none st.faces,
                  persons := personsAfterDetach f.personId st.persons }

/-- Modelled from the spec (§4.3): `create_person_from_face(face_id,
account_id)` creates a new (unnamed) person, sets it as the face's
assignment and as the person's representative face; the face's previous
person is decremented and possibly garbage-collected so that the §4.3
invariant holds after the mutation. -/
def create_person_from_face (st : Catalog) (fid accountId : Nat) :
    Except Err (Person × Catalog) :=
  match findFace st fid with
  | none => .error .NotFound
  | some f =>
    if f.accountId = accountId then
      .ok (⟨st.nextPersonId, accountId, none, some fid, 1⟩,
        { st with faces := setFacePerson fid (some st.nextPersonId) st.faces,
                  persons := personsAfterDetach f.personId
                    (st.persons ++ [⟨st.nextPersonId, accountId, none, some fid, 1⟩]),
                  nextPersonId := st.nextPersonId + 1 })
    else .error .CrossAccountAssignment

end PersonClusterManager

namespace FaceStore

/-- Modelled from the spec (§4.2): `create(asset_id, bbox, embedding,
source)` makes a new face with no assigned person, failing with
`InvalidBoundingBox` on degenerate coordinates and with `DimensionMismatch`
when the embedding does not have the configured dimension; the matching
Embedding Index insertion happens in the same transaction. -/
def create (st : Catalog) (accountId assetId : Nat) (bbox : BBox)
    (embedding : List ℚ) (source : FaceSource) (now : Nat) :
    Except Err (Face × Catalog) :=
  if bbox.x1 < bbox.x2 ∧ bbox.y1 < bbox.y2 then
    match EmbeddingIndex.insert st.dim st.index accountId st.nextFaceId
        embedding with
    | .error e => .error e
    | .ok idx' =>
      let f : Face := ⟨st.nextFaceId, assetId, accountId, bbox, embedding,
        none, source, now⟩
      .ok (f, { st with faces := st.faces ++ [f], index := idx',
                        nextFaceId := st.nextFaceId + 1 })
  else .error .InvalidBoundingBox

/-- The orphan-policy check of spec §4.2: a non-forced deletion is blocked
when the face is the sole remaining face of a named person. -/
def orphanBlocked (st : Catalog) (f : Face) (force : Bool) : Bool :=
  if force then false
  else
    match f.personId with
    | none => false
    | some o =>
      match findPerson st o with
      | none => false
      | some p => p.name.isSome && p.faceCount == 1

/-- Modelled from the spec (§4.2, §4.3, §6): `delete(face_id, force)` removes
the face record and its Embedding Index entry in the same transaction and
cascades to the owning person (decrement, garbage-collect if empty and
unnamed).  If `force` is false and the face is the sole remaining face of a
named person, it fails with `PersonWouldBeOrphaned`. -/
def deleteFace (st : Catalog) (fid : Nat) (force : Bool) :
    Except Err Catalog :=
  match findFace st fid with
  | none => .error .NotFound
  | some f =>
    if orphanBlocked st f force then .error .PersonWouldBeOrphaned
    else
      .ok { st with faces := st.faces.filter (fun g => g.faceId ≠ fid),
                    persons := personsAfterDetach f.personId st.persons,
                    index := EmbeddingIndex.remove st.index fid }

end FaceStore

theorem two_le_countP {α : Type} (p : α → Bool) {l : List α} {a b : α}
    (ha : a ∈ l) (hb : b ∈ l) (hne : a ≠ b) (hpa : p a = true)
    (hpb : p b = true) : 2 ≤ l.countP p := by
  induction l with
  | nil => cases ha
  | cons c l ih =>
      rw [List.countP_cons]
      rcases List.mem_cons.mp ha with rfl | ha'
      · have hb' : b ∈ l := by
          rcases List.mem_cons.mp hb with rfl | hb'
          · exact absurd rfl hne
          · exact hb'
        have h1 : 0 < l.countP p := List.countP_pos_iff.mpr ⟨b, hb', hpb⟩
        rw [if_pos hpa]
        omega
      · rcases List.mem_cons.mp hb with rfl | hb'
        · have h1 : 0 < l.countP p := List.countP_pos_iff.mpr ⟨a, ha', hpa⟩
          rw [if_pos hpb]
          omega
        · have := ih ha' hb'
          omega

theorem refCount_pos {faces : List Face} {f : Face} {x : Nat}
    (hmem : f ∈ faces) (h : f.personId = some x) : 0 < refCount x faces :=
  List.countP_pos_iff.mpr ⟨f, hmem, by simp [h]⟩

theorem setFacePerson_absent (fid : Nat) (po : Option Nat) (faces : List Face)
    (h : ∀ g ∈ faces, g.faceId ≠ fid) : setFacePerson fid po faces = faces := by
  unfold setFacePerson
  induction faces with
  | nil => rfl
  | cons g rest ih =>
      rw [List.map_cons, if_neg (h g (by simp)),
        ih (fun x hx => h x (by simp [hx]))]

theorem setFacePerson_map_faceId (fid : Nat) (po : Option Nat)
    (faces : List Face) :
    (setFacePerson fid po faces).map Face.faceId = faces.map Face.faceId := by
  unfold setFacePerson
  rw [List.map_map]
  apply List.map_congr_left
  intro f _
  by_cases h : f.faceId = fid <;> simp [h]

theorem refCount_setFacePerson (faces : List Face) (f : Face) (po : Option Nat)
    (x : Nat) (hmem : f ∈ faces) (hnd : (faces.map Face.faceId).Nodup) :
    refCount x (setFacePerson f.faceId po faces)
        + (if f.personId = some x then 1 else 0)
      = refCount x faces + (if po = some x then 1 else 0) := by
  induction faces with
  | nil => cases hmem
  | cons g rest ih =>
      rw [List.map_cons, List.nodup_cons] at hnd
      obtain ⟨hgnot, hndr⟩ := hnd
      by_cases hgf : g.faceId = f.faceId
      · have hfg : f = g := by
          rcases List.mem_cons.mp hmem with h | h
          · exact h
          · exact absurd (by rw [hgf]; exact List.mem_map_of_mem _ h) hgnot
        subst hfg
        have habs : setFacePerson f.faceId po rest = rest := by
          apply setFacePerson_absent
          intro g hg hgid
          exact hgnot (hgid ▸ List.mem_map_of_mem _ hg)
        rw [setFacePerson, List.map_cons, if_pos rfl]
        have : List.map (fun g => if g.faceId = f.faceId
            then { g with personId := po } else g) rest = rest := habs
        rw [this]
        simp only [refCount, List.countP_cons, decide_eq_true_eq]
        split_ifs <;> simp_all
      · have hmem' : f ∈ rest := by
          rcases List.mem_cons.mp hmem with h | h
          · exact absurd (congrArg Face.faceId h.symm) hgf
          · exact h
        rw [setFacePerson, List.map_cons, if_neg hgf]
        have hrec := ih hmem' hndr
        simp only [refCount, List.countP_cons, decide_eq_true_eq] at hrec ⊢
        rw [setFacePerson] at hrec
        split_ifs at hrec ⊢ <;> omega

theorem refCount_filter_erase (faces : List Face) (f : Face) (x : Nat)
    (hmem : f ∈ faces) (hnd : (faces.map Face.faceId).Nodup) :
    refCount x (faces.filter (fun g => g.faceId ≠ f.faceId))
        + (if f.personId = some x then 1 else 0)
      = refCount x faces := by
  induction faces with
  | nil => cases hmem
  | cons g rest ih =>
      rw [List.map_cons, List.nodup_cons] at hnd
      obtain ⟨hgnot, hndr⟩ := hnd
      by_cases hgf : g.faceId = f.faceId
      · have hfg : f = g := by
          rcases List.mem_cons.mp hmem with h | h
          · exact h
          · exact absurd (by rw [hgf]; exact List.mem_map_of_mem _ h) hgnot
        subst hfg
        have habs : rest.filter (fun g => g.faceId ≠ f.faceId) = rest := by
          rw [List.filter_eq_self]
          intro g hg
          have hne : g.faceId ≠ f.faceId :=
            fun hgid => hgnot (hgid ▸ List.mem_map_of_mem _ hg)
          simp [hne]
        rw [List.filter_cons, if_neg (by simp), habs]
        simp only [refCount, List.countP_cons, decide_eq_true_eq]
      · have hmem' : f ∈ rest := by
          rcases List.mem_cons.mp hmem with h | h
          · exact absurd (congrArg Face.faceId h.symm) hgf
          · exact h
        have hrec := ih hmem' hndr
        rw [List.filter_cons, if_pos (by simp [hgf])]
        simp only [refCount, List.countP_cons, decide_eq_true_eq] at hrec ⊢
        split_ifs at hrec ⊢ <;> omega

theorem incCount_map_personId (pid : Nat) (ps : List Person) :
    (incCount pid ps).map Person.personId = ps.map Person.personId := by
  unfold incCount
  rw [List.map_map]
  apply List.map_congr_left
  intro p _
  by_cases h : p.personId = pid <;> simp [h]

theorem decCountGC_map_sublist (o : Nat) (ps : List Person) :
    ((decCountGC o ps).map Person.personId).Sublist
      (ps.map Person.personId) := by
  apply filterMap_map_sublist
  intro p q hpq
  by_cases h : p.personId = o
  · rw [if_pos h] at hpq
    by_cases hgc : p.faceCount - 1 = 0 ∧ p.name = none
    · rw [if_pos hgc] at hpq; cases hpq
    · rw [if_neg hgc] at hpq; cases hpq; rfl
  · rw [if_neg h] at hpq; cases hpq; rfl

theorem of_mem_incCount {pid : Nat} {ps : List Person} {q : Person}
    (h : q ∈ incCount pid ps) :
    ∃ p ∈ ps, (p.personId ≠ pid ∧ q = p) ∨
      (p.personId = pid ∧ q = { p with faceCount := p.faceCount + 1 }) := by
  rw [incCount, List.mem_map] at h
  obtain ⟨p, hp, hq⟩ := h
  refine ⟨p, hp, ?_⟩
  by_cases hid : p.personId = pid
  · rw [if_pos hid] at hq; exact Or.inr ⟨hid, hq.symm⟩
  · rw [if_neg hid] at hq; exact Or.inl ⟨hid, hq.symm⟩

theorem of_mem_decCountGC {o : Nat} {ps : List Person} {q : Person}
    (h : q ∈ decCountGC o ps) :
    ∃ p ∈ ps, (p.personId ≠ o ∧ q = p) ∨
      (p.personId = o ∧ ¬(p.faceCount - 1 = 0 ∧ p.name = none) ∧
        q = { p with faceCount := p.faceCount - 1 }) := by
  rw [decCountGC, List.mem_filterMap] at h
  obtain ⟨p, hp, hq⟩ := h
  refine ⟨p, hp, ?_⟩
  by_cases hid : p.personId = o
  · rw [if_pos hid] at hq
    by_cases hgc : p.faceCount - 1 = 0 ∧ p.name = none
    · rw [if_pos hgc] at hq; cases hq
    · rw [if_neg hgc] at hq
      exact Or.inr ⟨hid, hgc, (Option.some_inj.mp hq).symm⟩
  · rw [if_neg hid] at hq
    exact Or.inl ⟨hid, (Option.some_inj.mp hq).symm⟩

theorem mem_incCount_of_ne {pid : Nat} {ps : List Person} {q : Person}
    (hq : q ∈ ps) (h : q.personId ≠ pid) : q ∈ incCount pid ps := by
  rw [incCount, List.mem_map]
  exact ⟨q, hq, by rw [if_neg h]⟩

theorem mem_incCount_of_eq {pid : Nat} {ps : List Person} {q : Person}
    (hq : q ∈ ps) (h : q.personId = pid) :
    { q with faceCount := q.faceCount + 1 } ∈ incCount pid ps := by
  rw [incCount, List.mem_map]
  exact ⟨q, hq, by rw [if_pos h]⟩

theorem mem_decCountGC_of_ne {o : Nat} {ps : List Person} {q : Person}
    (hq : q ∈ ps) (h : q.personId ≠ o) : q ∈ decCountGC o ps := by
  rw [decCountGC, List.mem_filterMap]
  exact ⟨q, hq, by rw [if_neg h]⟩

theorem mem_decCountGC_of_eq {o : Nat} {ps : List Person} {q : Person}
    (hq : q ∈ ps) (h : q.personId = o)
    (hsurv : ¬(q.faceCount - 1 = 0 ∧ q.name = none)) :
    { q with faceCount := q.faceCount - 1 } ∈ decCountGC o ps := by
  rw [decCountGC, List.mem_filterMap]
  exact ⟨q, hq, by rw [if_pos h, if_neg hsurv]⟩

theorem findFace_some {st : Catalog} {fid : Nat} {f : Face}
    (h : findFace st fid = some f) : f ∈ st.faces ∧ f.faceId = fid := by
  rw [findFace] at h
  have h1 := List.find?_some h
  exact ⟨List.mem_of_find?_eq_some h, of_decide_eq_true h1⟩

theorem findPerson_some {st : Catalog} {pid : Nat} {p : Person}
    (h : findPerson st pid = some p) : p ∈ st.persons ∧ p.personId = pid := by
  rw [findPerson] at h
  have h1 := List.find?_some h
  exact ⟨List.mem_of_find?_eq_some h, of_decide_eq_true h1⟩

theorem personsAfterDetach_map_sublist (old : Option Nat) (ps : List Person) :
    ((personsAfterDetach old ps).map Person.personId).Sublist
      (ps.map Person.personId) := by
  cases old with
  | none => exact List.Sublist.refl _
  | some o => exact decCountGC_map_sublist o ps

theorem two_le_refCount {faces : List Face} {f g : Face} {x : Nat}
    (hf : f ∈ faces) (hg : g ∈ faces) (hne : f ≠ g)
    (hfx : f.personId = some x) (hgx : g.personId = some x) :
    2 ≤ refCount x faces :=
  two_le_countP _ hf hg hne (by simp [hfx]) (by simp [hgx])

/-- If every person's count equals its reference count in the new face list
plus one pending decrement for the detached pointer `old`, then after the
decrement/garbage-collection step every surviving person's count is exact. -/
theorem counts_personsAfterDetach {ps : List Person} {F : List Face}
    {old : Option Nat}
    (hcount : ∀ q ∈ ps, q.faceCount
        = refCount q.personId F + (if old = some q.personId then 1 else 0)) :
    ∀ q' ∈ personsAfterDetach old ps,
      q'.faceCount = refCount q'.personId F := by
  intro q' hq'
  cases old with
  | none => simpa using hcount q' hq'
  | some o =>
      obtain ⟨q, hq, hcase⟩ := of_mem_decCountGC hq'
      have hcq := hcount q hq
      rcases hcase with ⟨hne, hqe⟩ | ⟨heq, hsurv, hqe⟩
      · rw [hqe]
        have hne' : ¬ (some o = some q.personId) := by
          simp only [Option.some.injEq]
          exact fun hh => hne hh.symm
        rw [if_neg hne'] at hcq
        exact hcq
      · rw [hqe]
        have heq' : some o = some q.personId := by rw [heq]
        rw [if_pos heq'] at hcq
        show q.faceCount - 1 = refCount q.personId F
        omega

/-- A person referenced in the person list survives the
decrement/garbage-collection step provided that, when it is the decremented
one, it keeps a positive count or is named. -/
theorem exists_personsAfterDetach {ps : List Person} {old : Option Nat}
    {x : Nat}
    (hx : ∃ q ∈ ps, q.personId = x ∧
      (old = some x → 2 ≤ q.faceCount ∨ q.name ≠ none)) :
    ∃ q' ∈ personsAfterDetach old ps, q'.personId = x := by
  obtain ⟨q, hq, hqx, hsafe⟩ := hx
  cases old with
  | none => exact ⟨q, hq, hqx⟩
  | some o =>
      by_cases ho : q.personId = o
      · have hox : o = x := by rw [← ho, hqx]
        have hs := hsafe (by rw [hox])
        refine ⟨{ q with faceCount := q.faceCount - 1 },
          mem_decCountGC_of_eq hq ho ?_, hqx⟩
        rintro ⟨hc, hn0⟩
        rcases hs with h2 | hn
        · omega
        · exact hn hn0
      · exact ⟨q, mem_decCountGC_of_ne hq ho, hqx⟩

theorem assign_preserves {st : Catalog} {fid pid : Nat} {st' : Catalog}
    (hWF : WF st) (hC : Consistent st)
    (h : PersonClusterManager.assign st fid pid = .ok st') :
    WF st' ∧ Consistent st' := by
  obtain ⟨hndF, hndP, hbP, hbF⟩ := hWF
  obtain ⟨hcount, hdang⟩ := hC
  rw [PersonClusterManager.assign] at h
  cases hf : findFace st fid with
  | none => rw [hf] at h; exact absurd h (by simp)
  | some f =>
  simp only [hf] at h
  cases hp : findPerson st pid with
  | none => simp only [hp] at h; exact absurd h (by simp)
  | some p =>
  simp only [hp] at h
  by_cases hacc : f.accountId = p.accountId
  case neg => rw [if_neg hacc] at h; exact absurd h (by simp)
  case pos =>
  rw [if_pos hacc] at h
  injection h with h
  subst h
  obtain ⟨hmemf, hffid⟩ := findFace_some hf
  obtain ⟨hpmem, hppid⟩ := findPerson_some hp
  subst hffid
  constructor
  · refine ⟨?_, ?_, ?_, ?_⟩
    · show ((setFacePerson f.faceId (some pid) st.faces).map Face.faceId).Nodup
      rw [setFacePerson_map_faceId]; exact hndF
    · show ((personsAfterMove f.personId pid st.persons).map
        Person.personId).Nodup
      have h1 := personsAfterDetach_map_sublist f.personId
        (incCount pid st.persons)
      rw [incCount_map_personId] at h1
      exact h1.nodup hndP
    · intro q hq
      show q.personId < st.nextPersonId
      have h1 := List.mem_map_of_mem Person.personId hq
      have h2 := (personsAfterDetach_map_sublist f.personId
        (incCount pid st.persons)).subset h1
      rw [incCount_map_personId] at h2
      obtain ⟨q0, hq0, hid⟩ := List.mem_map.mp h2
      rw [← hid]; exact hbP q0 hq0
    · intro g hg
      show g.faceId < st.nextFaceId
      have h1 := List.mem_map_of_mem Face.faceId hg
      rw [setFacePerson_map_faceId] at h1
      obtain ⟨g0, hg0, hid⟩ := List.mem_map.mp h1
      rw [← hid]; exact hbF g0 hg0
  constructor
  · show ∀ q ∈ personsAfterDetach f.personId (incCount pid st.persons),
      q.faceCount = refCount q.personId
        (setFacePerson f.faceId (some pid) st.faces)
    apply counts_personsAfterDetach
    intro q1 hq1
    obtain ⟨q, hq, hcase⟩ := of_mem_incCount hq1
    rcases hcase with ⟨hne, hqe⟩ | ⟨heq, hqe⟩
    · rw [hqe]
      have hkey := refCount_setFacePerson st.faces f (some pid) q.personId
        hmemf hndF
      have hcq := hcount q hq
      have hne' : ¬ (some pid = some q.personId) := by
        simp only [Option.some.injEq]
        exact fun hh => hne hh.symm
      rw [if_neg hne'] at hkey
      omega
    · rw [hqe]
      show q.faceCount + 1 = refCount q.personId
        (setFacePerson f.faceId (some pid) st.faces)
        + (if f.personId = some q.personId then 1 else 0)
      have hkey := refCount_setFacePerson st.faces f (some pid) q.personId
        hmemf hndF
      have hcq := hcount q hq
      have heq' : some pid = some q.personId := by rw [heq]
      rw [if_pos heq'] at hkey
      omega
  · show ∀ g ∈ setFacePerson f.faceId (some pid) st.faces, ∀ x,
      g.personId = some x →
        ∃ q ∈ personsAfterDetach f.personId (incCount pid st.persons),
          q.personId = x
    intro g' hg' x hx
    obtain ⟨g, hg, hgeq⟩ := List.mem_map.mp hg'
    by_cases hcg : g.faceId = f.faceId
    · rw [if_pos hcg] at hgeq
      subst hgeq
      have hpx : pid = x := by simpa using hx
      subst hpx
      apply exists_personsAfterDetach
      refine ⟨{ p with faceCount := p.faceCount + 1 },
        mem_incCount_of_eq hpmem hppid, hppid, ?_⟩
      intro hold
      left
      show 2 ≤ p.faceCount + 1
      have h1 := refCount_pos hmemf hold
      have hcp := hcount p hpmem
      rw [hppid] at hcp
      omega
    · rw [if_neg hcg] at hgeq
      subst hgeq
      obtain ⟨q, hq, hqx⟩ := hdang g hg x hx
      apply exists_personsAfterDetach
      by_cases hxp : x = pid
      · subst hxp
        refine ⟨{ q with faceCount := q.faceCount + 1 },
          mem_incCount_of_eq hq hqx, hqx, ?_⟩
        intro hold
        left
        show 2 ≤ q.faceCount + 1
        have h1 := refCount_pos hmemf hold
        have hcq := hcount q hq
        rw [hqx] at hcq
        omega
      · refine ⟨q, mem_incCount_of_ne hq (by rw [hqx]; exact hxp), hqx, ?_⟩
        intro hold
        left
        have hgf : g ≠ f := fun hh => hcg (by rw [hh])
        have h2 := two_le_refCount hmemf hg (fun hh => hgf hh.symm) hold hx
        have hcq := hcount q hq
        rw [hqx] at hcq
        omega

theorem detach_preserves {st : Catalog} {fid : Nat} {st' : Catalog}
    (hWF : WF st) (hC : Consistent st)
    (h : PersonClusterManager.detach st fid = .ok st') :
    WF st' ∧ Consistent st' := by
  obtain ⟨hndF, hndP, hbP, hbF⟩ := hWF
  obtain ⟨hcount, hdang⟩ := hC
  rw [PersonClusterManager.detach] at h
  cases hf : findFace st fid with
  | none => rw [hf] at h; exact absurd h (by simp)
  | some f =>
  simp only [hf] at h
  injection h with h
  subst h
  obtain ⟨hmemf, hffid⟩ := findFace_some hf
  subst hffid
  constructor
  · refine ⟨?_, ?_, ?_, ?_⟩
    · show ((setFacePerson f.faceId none st.faces).map Face.faceId).Nodup
      rw [setFacePerson_map_faceId]; exact hndF
    · exact ((personsAfterDetach_map_sublist f.personId st.persons).nodup hndP)
    · intro q hq
      show q.personId < st.nextPersonId
      have h1 := List.mem_map_of_mem Person.personId hq
      have h2 := (personsAfterDetach_map_sublist f.personId
        st.persons).subset h1
      obtain ⟨q0, hq0, hid⟩ := List.mem_map.mp h2
      rw [← hid]; exact hbP q0 hq0
    · intro g hg
      show g.faceId < st.nextFaceId
      have h1 := List.mem_map_of_mem Face.faceId hg
      rw [setFacePerson_map_faceId] at h1
      obtain ⟨g0, hg0, hid⟩ := List.mem_map.mp h1
      rw [← hid]; exact hbF g0 hg0
  constructor
  · show ∀ q ∈ personsAfterDetach f.personId st.persons,
      q.faceCount = refCount q.personId (setFacePerson f.faceId none st.faces)
    apply counts_personsAfterDetach
    intro q hq
    have hkey := refCount_setFacePerson st.faces f none q.personId hmemf hndF
    have hcq := hcount q hq
    have hno : ¬ ((none : Option Nat) = some q.personId) := by simp
    rw [if_neg hno] at hkey
    omega
  · show ∀ g ∈ setFacePerson f.faceId none st.faces, ∀ x,
      g.personId = some x →
        ∃ q ∈ personsAfterDetach f.personId st.persons, q.personId = x
    intro g' hg' x hx
    obtain ⟨g, hg, hgeq⟩ := List.mem_map.mp hg'
    by_cases hcg : g.faceId = f.faceId
    · rw [if_pos hcg] at hgeq
      subst hgeq
      simp at hx
    · rw [if_neg hcg] at hgeq
      subst hgeq
      obtain ⟨q, hq, hqx⟩ := hdang g hg x hx
      apply exists_personsAfterDetach
      refine ⟨q, hq, hqx, ?_⟩
      intro hold
      left
      have hgf : g ≠ f := fun hh => hcg (by rw [hh])
      have h2 := two_le_refCount hmemf hg (fun hh => hgf hh.symm) hold hx
      have hcq := hcount q hq
      rw [hqx] at hcq
      omega

theorem deleteFace_preserves {st : Catalog} {fid : Nat} {force : Bool}
    {st' : Catalog} (hWF : WF st) (hC : Consistent st)
    (h : FaceStore.deleteFace st fid force = .ok st') :
    WF st' ∧ Consistent st' := by
  obtain ⟨hndF, hndP, hbP, hbF⟩ := hWF
  obtain ⟨hcount, hdang⟩ := hC
  rw [FaceStore.deleteFace] at h
  cases hf : findFace st fid with
  | none => rw [hf] at h; exact absurd h (by simp)
  | some f =>
  simp only [hf] at h
  by_cases horf : FaceStore.orphanBlocked st f force
  case pos => rw [if_pos horf] at h; exact absurd h (by simp)
  case neg =>
  rw [if_neg horf] at h
  injection h with h
  subst h
  obtain ⟨hmemf, hffid⟩ := findFace_some hf
  subst hffid
  constructor
  · refine ⟨?_, ?_, ?_, ?_⟩
    · show ((st.faces.filter (fun g => g.faceId ≠ f.faceId)).map
        Face.faceId).Nodup
      exact ((List.filter_sublist _).map _).nodup hndF
    · exact ((personsAfterDetach_map_sublist f.personId st.persons).nodup hndP)
    · intro q hq
      show q.personId < st.nextPersonId
      have h1 := List.mem_map_of_mem Person.personId hq
      have h2 := (personsAfterDetach_map_sublist f.personId
        st.persons).subset h1
      obtain ⟨q0, hq0, hid⟩ := List.mem_map.mp h2
      rw [← hid]; exact hbP q0 hq0
    · intro g hg
      show g.faceId < st.nextFaceId
      exact hbF g (List.mem_of_mem_filter hg)
  constructor
  · show ∀ q ∈ personsAfterDetach f.personId st.persons,
      q.faceCount = refCount q.personId
        (st.faces.filter (fun g => g.faceId ≠ f.faceId))
    apply counts_personsAfterDetach
    intro q hq
    have hkey := refCount_filter_erase st.faces f q.personId hmemf hndF
    have hcq := hcount q hq
    omega
  · show ∀ g ∈ st.faces.filter (fun g => g.faceId ≠ f.faceId), ∀ x,
      g.personId = some x →
        ∃ q ∈ personsAfterDetach f.personId st.persons, q.personId = x
    intro g hg x hx
    have hgmem := List.mem_of_mem_filter hg
    have hgne : g.faceId ≠ f.faceId := by
      have := List.of_mem_filter hg
      simpa using this
    obtain ⟨q, hq, hqx⟩ := hdang g hgmem x hx
    apply exists_personsAfterDetach
    refine ⟨q, hq, hqx, ?_⟩
    intro hold
    left
    have hgf : g ≠ f := fun hh => hgne (by rw [hh])
    have h2 := two_le_refCount hmemf hgmem (fun hh => hgf hh.symm) hold hx
    have hcq := hcount q hq
    rw [hqx] at hcq
    omega

theorem createPersonFromFace_preserves {st : Catalog} {fid acc : Nat}
    {p' : Person} {st' : Catalog} (hWF : WF st) (hC : Consistent st)
    (h : PersonClusterManager.create_person_from_face st fid acc
      = .ok (p', st')) :
    WF st' ∧ Consistent st' := by
  obtain ⟨hndF, hndP, hbP, hbF⟩ := hWF
  obtain ⟨hcount, hdang⟩ := hC
  rw [PersonClusterManager.create_person_from_face] at h
  cases hf : findFace st fid with
  | none => rw [hf] at h; exact absurd h (by simp)
  | some f =>
  simp only [hf] at h
  by_cases hacc : f.accountId = acc
  case neg => rw [if_neg hacc] at h; exact absurd h (by simp)
  case pos =>
  rw [if_pos hacc] at h
  injection h with h
  have h2 : ({ st with
      faces := setFacePerson fid (some st.nextPersonId) st.faces,
      persons := personsAfterDetach f.personId
        (st.persons ++ [⟨st.nextPersonId, acc, none, some fid, 1⟩]),
      nextPersonId := st.nextPersonId + 1 } : Catalog) = st' :=
    congrArg Prod.snd h
  subst h2
  obtain ⟨hmemf, hffid⟩ := findFace_some hf
  subst hffid
  have hfresh : ∀ q ∈ st.persons, q.personId ≠ st.nextPersonId :=
    fun q hq => Nat.ne_of_lt (hbP q hq)
  have hrefN : refCount st.nextPersonId st.faces = 0 := by
    rw [refCount, List.countP_eq_zero]
    intro g hg hgp
    rw [decide_eq_true_eq] at hgp
    obtain ⟨q, hq, hqx⟩ := hdang g hg _ hgp
    exact hfresh q hq hqx
  have hf_ne : f.personId ≠ some st.nextPersonId := by
    intro hh
    obtain ⟨q, hq, hqx⟩ := hdang f hmemf _ hh
    exact hfresh q hq hqx
  have hnd1 : ((st.persons
      ++ [(⟨st.nextPersonId, acc, none, some f.faceId, 1⟩ : Person)]).map
        Person.personId).Nodup := by
    rw [List.map_append]
    apply List.Nodup.append hndP (List.nodup_singleton _)
    intro a ha hb
    rw [List.mem_singleton] at hb
    obtain ⟨q, hq, hqx⟩ := List.mem_map.mp ha
    exact hfresh q hq (by rw [hqx, hb])
  constructor
  · refine ⟨?_, ?_, ?_, ?_⟩
    · show ((setFacePerson f.faceId (some st.nextPersonId) st.faces).map
        Face.faceId).Nodup
      rw [setFacePerson_map_faceId]; exact hndF
    · exact (personsAfterDetach_map_sublist _ _).nodup hnd1
    · intro q hq
      show q.personId < st.nextPersonId + 1
      have h1 := List.mem_map_of_mem Person.personId hq
      have h2 := (personsAfterDetach_map_sublist _ _).subset h1
      rw [List.map_append] at h2
      rcases List.mem_append.mp h2 with h3 | h3
      · obtain ⟨q0, hq0, hid⟩ := List.mem_map.mp h3
        rw [← hid]
        exact Nat.lt_succ_of_lt (hbP q0 hq0)
      · rw [List.map_singleton, List.mem_singleton] at h3
        rw [h3]
        exact Nat.lt_succ_self _
    · intro g hg
      show g.faceId < st.nextFaceId
      have h1 := List.mem_map_of_mem Face.faceId hg
      rw [setFacePerson_map_faceId] at h1
      obtain ⟨g0, hg0, hid⟩ := List.mem_map.mp h1
      rw [← hid]; exact hbF g0 hg0
  constructor
  · show ∀ q ∈ personsAfterDetach f.personId
      (st.persons ++ [(⟨st.nextPersonId, acc, none, some f.faceId, 1⟩ : Person)]),
      q.faceCount = refCount q.personId
        (setFacePerson f.faceId (some st.nextPersonId) st.faces)
    apply counts_personsAfterDetach
    intro q hq
    rcases List.mem_append.mp hq with hqm | hqm
    · have hkey := refCount_setFacePerson st.faces f (some st.nextPersonId)
        q.personId hmemf hndF
      have hcq := hcount q hqm
      have hne' : ¬ (some st.nextPersonId = some q.personId) := by
        simp only [Option.some.injEq]
        exact fun hh => hfresh q hqm hh.symm
      rw [if_neg hne'] at hkey
      omega
    · rw [List.mem_singleton] at hqm
      subst hqm
      show 1 = refCount st.nextPersonId
          (setFacePerson f.faceId (some st.nextPersonId) st.faces)
        + (if f.personId = some st.nextPersonId then 1 else 0)
      have hkey := refCount_setFacePerson st.faces f (some st.nextPersonId)
        st.nextPersonId hmemf hndF
      rw [if_pos rfl] at hkey
      rw [if_neg hf_ne] at hkey ⊢
      omega
  · show ∀ g ∈ setFacePerson f.faceId (some st.nextPersonId) st.faces, ∀ x,
      g.personId = some x →
        ∃ q ∈ personsAfterDetach f.personId
          (st.persons
            ++ [(⟨st.nextPersonId, acc, none, some f.faceId, 1⟩ : Person)]),
          q.personId = x
    intro g' hg' x hx
    obtain ⟨g, hg, hgeq⟩ := List.mem_map.mp hg'
    by_cases hcg : g.faceId = f.faceId
    · rw [if_pos hcg] at hgeq
      subst hgeq
      have hpx : st.nextPersonId = x := by simpa using hx
      subst hpx
      apply exists_personsAfterDetach
      refine ⟨⟨st.nextPersonId, acc, none, some f.faceId, 1⟩,
        List.mem_append_right _ (List.mem_singleton.mpr rfl), rfl, ?_⟩
      intro hold
      exact absurd hold hf_ne
    · rw [if_neg hcg] at hgeq
      subst hgeq
      obtain ⟨q, hq, hqx⟩ := hdang g hg x hx
      apply exists_personsAfterDetach
      refine ⟨q, List.mem_append_left _ hq, hqx, ?_⟩
      intro hold
      left
      have hgf : g ≠ f := fun hh => hcg (by rw [hh])
      have h2 := two_le_refCount hmemf hg (fun hh => hgf hh.symm) hold hx
      have hcq := hcount q hq
      rw [hqx] at hcq
      omega

theorem reassign_preserves {st : Catalog} {fid pid : Nat} {p' : Person}
    {st' : Catalog} (hWF : WF st) (hC : Consistent st)
    (h : PersonClusterManager.reassign st fid pid = .ok (p', st')) :
    WF st' ∧ Consistent st' := by
  rw [PersonClusterManager.reassign] at h
  cases ha : PersonClusterManager.assign st fid pid with
  | error e => rw [ha] at h; exact absurd h (by simp)
  | ok st1 =>
      simp only [ha] at h
      cases hp : findPerson st1 pid with
      | none => simp only [hp] at h; exact absurd h (by simp)
      | some p =>
          simp only [hp] at h
          injection h with h
          have h2 : st1 = st' := congrArg Prod.snd h
          subst h2
          exact assign_preserves hWF hC ha

/-- C1: after every mutation of the catalog (assign, reassign, detach,
create_person_from_face, delete), every person's stored `face_count` equals
the number of faces referencing it and no face references a nonexistent
person. -/
theorem c1_invariant_after_mutations (st : Catalog) (hWF : WF st)
    (hC : Consistent st) :
    (∀ fid pid st', PersonClusterManager.assign st fid pid = .ok st' →
      Consistent st') ∧
    (∀ fid pid p' st',
      PersonClusterManager.reassign st fid pid = .ok (p', st') →
      Consistent st') ∧
    (∀ fid st', PersonClusterManager.detach st fid = .ok st' →
      Consistent st') ∧
    (∀ fid acc p' st',
      PersonClusterManager.create_person_from_face st fid acc = .ok (p', st') →
      Consistent st') ∧
    (∀ fid force st', FaceStore.deleteFace st fid force = .ok st' →
      Consistent st') :=
  ⟨fun _ _ _ h => (assign_preserves hWF hC h).2,
   fun _ _ _ _ h => (reassign_preserves hWF hC h).2,
   fun _ _ h => (detach_preserves hWF hC h).2,
   fun _ _ _ _ h => (createPersonFromFace_preserves hWF hC h).2,
   fun _ _ _ h => (deleteFace_preserves hWF hC h).2⟩

/-- The state-passing form of `reassign`: on failure the catalog is returned
unchanged (validation precedes any write; spec §7 "validation errors are
detected and reported immediately without side effects"). -/
def reassignRun (st : Catalog) (fid pid : Nat) :
    Catalog × Except Err Person :=
  match PersonClusterManager.reassign st fid pid with
  | .ok (p, st') => (st', .ok p)
  | .error e => (st, .error e)

/-- C4: reassigning a face onto a person of a different account fails with
`CrossAccountAssignment` and leaves the catalog — in particular the face's
and the person's stored state — exactly as before. -/
theorem c4_reassign_cross_account (st : Catalog) (fid pid : Nat) (f : Face)
    (p : Person) (hf : findFace st fid = some f)
    (hp : findPerson st pid = some p) (hacc : f.accountId ≠ p.accountId) :
    (reassignRun st fid pid).2 = .error .CrossAccountAssignment ∧
    (reassignRun st fid pid).1 = st ∧
    findFace (reassignRun st fid pid).1 fid = some f ∧
    findPerson (reassignRun st fid pid).1 pid = some p := by
  have ha : PersonClusterManager.assign st fid pid
      = .error .CrossAccountAssignment := by
    rw [PersonClusterManager.assign]
    simp only [hf, hp]
    rw [if_neg hacc]
  have hr : PersonClusterManager.reassign st fid pid
      = .error .CrossAccountAssignment := by
    rw [PersonClusterManager.reassign, ha]
  rw [reassignRun, hr]
  exact ⟨rfl, rfl, hf, hp⟩

theorem eq_of_nodup_map_personId {ps : List Person}
    (hnd : (ps.map Person.personId).Nodup) {a b : Person}
    (ha : a ∈ ps) (hb : b ∈ ps) (h : a.personId = b.personId) : a = b :=
  List.inj_on_of_nodup_map hnd ha hb h

/-- C3: deleting the sole remaining face of a named person fails with
`PersonWouldBeOrphaned` unless forced; a forced deletion removes the face
record unconditionally, after which the person is garbage-collected if
unnamed, or retained with `face_count = 0` if named. -/
theorem c3_delete_orphan_policy (st : Catalog) (fid : Nat) (f : Face)
    (hWF : WF st) (hf : findFace st fid = some f) :
    (∀ o p, f.personId = some o → findPerson st o = some p →
      p.name ≠ none → p.faceCount = 1 →
      FaceStore.deleteFace st fid false = .error .PersonWouldBeOrphaned) ∧
    (∃ st', FaceStore.deleteFace st fid true = .ok st' ∧
      findFace st' fid = none ∧
      (∀ o p, f.personId = some o → findPerson st o = some p →
        p.faceCount = 1 →
        ((p.name = none → ∀ q ∈ st'.persons, q.personId ≠ o) ∧
         (p.name ≠ none →
           ∃ q ∈ st'.persons, q.personId = o ∧ q.faceCount = 0)))) := by
  obtain ⟨hndF, hndP, hbP, hbF⟩ := hWF
  obtain ⟨hmemf, hffid⟩ := findFace_some hf
  subst hffid
  constructor
  · intro o p ho hp hname hcount1
    rw [FaceStore.deleteFace]
    simp only [hf]
    have hblock : FaceStore.orphanBlocked st f false = true := by
      rw [FaceStore.orphanBlocked]
      simp [ho, hp, hcount1, Option.isSome_iff_ne_none, hname]
    rw [if_pos hblock]
  · have hnoblock : FaceStore.orphanBlocked st f true = false := by
      rw [FaceStore.orphanBlocked]; simp
    refine ⟨{ st with
        faces := st.faces.filter (fun g => g.faceId ≠ f.faceId),
        persons := personsAfterDetach f.personId st.persons,
        index := EmbeddingIndex.remove st.index f.faceId }, ?_, ?_, ?_⟩
    · rw [FaceStore.deleteFace]
      simp only [hf]
      rw [if_neg (by simp [hnoblock])]
    · show List.find? _ (st.faces.filter (fun g => g.faceId ≠ f.faceId)) = none
      rw [List.find?_eq_none]
      intro g hg
      have h1 := List.of_mem_filter hg
      simp only [ne_eq, decide_not, Bool.not_eq_eq_eq_not, Bool.not_true,
        decide_eq_false_iff_not] at h1
      simpa using h1
    · intro o p ho hp hcount1
      obtain ⟨hpmem, hpid⟩ := findPerson_some hp
      constructor
      · intro hunnamed q hq hqid
        have hq' : q ∈ decCountGC o st.persons := by
          have h2 : q ∈ personsAfterDetach f.personId st.persons := hq
          rw [ho] at h2
          exact h2
        obtain ⟨q0, hq0, hcase⟩ := of_mem_decCountGC hq'
        rcases hcase with ⟨hne, hqe⟩ | ⟨heq, hsurv, hqe⟩
        · apply hne
          rw [← hqe]
          exact hqid
        · have hq0p : q0 = p := eq_of_nodup_map_personId hndP hq0 hpmem
            (by rw [heq, hpid])
          subst hq0p
          exact hsurv ⟨by omega, hunnamed⟩
      · intro hname
        refine ⟨{ p with faceCount := p.faceCount - 1 }, ?_, hpid, ?_⟩
        · show _ ∈ personsAfterDetach f.personId st.persons
          rw [ho]
          exact mem_decCountGC_of_eq hpmem hpid (fun hh => hname hh.2)
        · show p.faceCount - 1 = 0
          omega

theorem countP_not_add {α : Type} (p : α → Bool) (l : List α) :
    l.countP (fun a => ! p a) + l.countP p = l.length := by
  induction l with
  | nil => simp
  | cons a l ih =>
      rw [List.countP_cons, List.countP_cons]
      cases h : p a <;> simp [h] <;> omega

theorem countP_le_one_of_nodup {α β : Type} [DecidableEq β] {f : α → β}
    {l : List α} (hnd : (l.map f).Nodup) (c : β) :
    l.countP (fun a => f a = c) ≤ 1 := by
  induction l with
  | nil => simp
  | cons a l ih =>
      rw [List.map_cons, List.nodup_cons] at hnd
      obtain ⟨hna, hnd'⟩ := hnd
      rw [List.countP_cons]
      by_cases h : f a = c
      · have h0 : l.countP (fun a => decide (f a = c)) = 0 := by
          rw [List.countP_eq_zero]
          intro b hb hfb
          rw [decide_eq_true_eq] at hfb
          have hmm : f b ∈ List.map f l := List.mem_map_of_mem f hb
          rw [hfb, ← h] at hmm
          exact hna hmm
        rw [if_pos (by simp [h]), h0]
      · rw [if_neg (by simp [h]), add_zero]
        exact ih hnd'

/-- One-to-one ownership of Embedding Index entries by faces (spec §3):
entry face ids are unique, every entry belongs to an existing face, and
every face owns an entry. -/
def IndexWF (st : Catalog) : Prop :=
  (st.index.map IndexEntry.faceId).Nodup ∧
  (∀ e ∈ st.index, ∃ g ∈ st.faces, g.faceId = e.faceId) ∧
  (∀ g ∈ st.faces, ∃ e ∈ st.index, e.faceId = g.faceId)

instance (st : Catalog) : Decidable (IndexWF st) := by
  unfold IndexWF; infer_instance

/-- C6: a successful `deleteFace` removes the face's Embedding Index entry in
the same operation — afterwards no entry carries that face id, the index
size has decreased by exactly one, and one-to-one ownership still holds. -/
theorem c6_delete_removes_index_entry (st : Catalog) (fid : Nat)
    (force : Bool) (st' : Catalog) (hI : IndexWF st)
    (h : FaceStore.deleteFace st fid force = .ok st') :
    (∀ e ∈ st'.index, e.faceId ≠ fid) ∧
    st'.index.length + 1 = st.index.length ∧
    IndexWF st' := by
  obtain ⟨hndI, hIF, hFI⟩ := hI
  rw [FaceStore.deleteFace] at h
  cases hf : findFace st fid with
  | none => rw [hf] at h; exact absurd h (by simp)
  | some f =>
  simp only [hf] at h
  by_cases horf : FaceStore.orphanBlocked st f force
  case pos => rw [if_pos horf] at h; exact absurd h (by simp)
  case neg =>
  rw [if_neg horf] at h
  injection h with h
  subst h
  obtain ⟨hmemf, hffid⟩ := findFace_some hf
  subst hffid
  refine ⟨?_, ?_, ?_, ?_, ?_⟩
  · intro e he
    have h1 := List.of_mem_filter he
    simpa using h1
  · have hcnt1 : st.index.countP (fun e => e.faceId = f.faceId) = 1 := by
      apply le_antisymm (countP_le_one_of_nodup hndI _)
      obtain ⟨e, he, heid⟩ := hFI f hmemf
      exact List.countP_pos_iff.mpr ⟨e, he, by simp [heid]⟩
    have hsum := countP_not_add (fun e => decide (e.faceId = f.faceId)) st.index
    have hlen : (EmbeddingIndex.remove st.index f.faceId).length
        = st.index.countP (fun e => ! decide (e.faceId = f.faceId)) := by
      rw [EmbeddingIndex.remove, ← List.countP_eq_length_filter]
      congr 1
      funext e
      simp [decide_not]
    show (EmbeddingIndex.remove st.index f.faceId).length + 1
      = st.index.length
    omega
  · show ((EmbeddingIndex.remove st.index f.faceId).map
      IndexEntry.faceId).Nodup
    exact ((List.filter_sublist _).map _).nodup hndI
  · intro e he
    have hemem := List.mem_of_mem_filter he
    have hene : e.faceId ≠ f.faceId := by
      have h1 := List.of_mem_filter he
      simpa using h1
    obtain ⟨g, hg, hgid⟩ := hIF e hemem
    refine ⟨g, List.mem_filter.mpr ⟨hg, ?_⟩, hgid⟩
    simp [hgid, hene]
  · intro g hg
    have hgmem := List.mem_of_mem_filter hg
    have hgne : g.faceId ≠ f.faceId := by
      have h1 := List.of_mem_filter hg
      simpa using h1
    obtain ⟨e, he, heid⟩ := hFI g hgmem
    refine ⟨e, List.mem_filter.mpr ⟨he, ?_⟩, heid⟩
    simp [heid, hgne]

/-- A detector/embedder observation (spec §4.4): bounding box plus embedding,
produced by the external `detect_and_embed`. -/
structure FaceObservation where
  bbox : BBox
  embedding : List ℚ

/-- One identification result (spec §4.4 step 4): the observation's bounding
box and the ranked candidate people with their similarity scores. -/
structure IdentifyResult where
  bbox : BBox
  candidates : List (Nat × Sim)

/-- Keep the first (hence highest-similarity, as the input is ranked)
occurrence of every person (spec §4.4 step 3). -/
def dedupByPerson (l : List (Nat × Sim)) : List (Nat × Sim) :=
  l.foldl (fun acc p => if acc.any (fun q => q.1 = p.1) then acc
    else acc ++ [p]) []

/-- Modelled from the spec (§4.4 step 3): resolve each matched face's current
person via the Face Store, dropping unassigned or vanished faces, and
deduplicate by person keeping the highest-similarity entry. -/
def resolveCandidates (st : Catalog) (ms : List (Nat × Sim)) :
    List (Nat × Sim) :=
  dedupByPerson (ms.filterMap fun m =>
    match findFace st m.1 with
    | none => none
    | some f =>
      match f.personId with
      | none => none
      | some pid => some (pid, m.2))

/-- One identification step per observation (spec §4.4 step 2–4): query the
Embedding Index of the current catalog, resolve people, emit a result; the
catalog is passed through untouched. -/
def identifyStep (accountId k : Nat) (minSimilarity : ℚ)
    (acc : List IdentifyResult × Catalog) (obs : FaceObservation) :
    List IdentifyResult × Catalog :=
  (acc.1 ++ [⟨obs.bbox, resolveCandidates acc.2
    (EmbeddingIndex.query_knn acc.2.index accountId obs.embedding k
      minSimilarity)⟩], acc.2)

/-- Modelled from the spec (§4.4, §6): `identifyFaces` validates the upload
(`EmptyUpload` when the file is absent or empty), invokes the external
detector/embedder, and matches every observation read-only against the
catalog; the resulting catalog is returned alongside the response. -/
def identifyFaces (detect : List Nat → Except Err (List FaceObservation))
    (st : Catalog) (accountId : Nat) (file : Option (List Nat))
    (k : Nat) (minSimilarity : ℚ) :
    Except Err (List IdentifyResult) × Catalog :=
  match file with
  | none => (.error .EmptyUpload, st)
  | some bytes =>
    if bytes = [] then (.error .EmptyUpload, st)
    else
      match detect bytes with
      | .error e => (.error e, st)
      | .ok obss =>
        (.ok (obss.foldl (identifyStep accountId k minSimilarity)
          ([], st)).1,
         (obss.foldl (identifyStep accountId k minSimilarity) ([], st)).2)

theorem identifyFold_snd (accountId k : Nat) (t : ℚ)
    (obss : List FaceObservation) (r : List IdentifyResult) (s : Catalog) :
    (obss.foldl (identifyStep accountId k t) (r, s)).2 = s := by
  induction obss generalizing r with
  | nil => rfl
  | cons o obss ih =>
      rw [List.foldl_cons]
      exact ih _

/-- C5: identification never mutates stored state — for every detector
result, input image and starting catalog, the catalog (Face Store, Person
set and Embedding Index alike) after `identifyFaces` is exactly the catalog
before it. -/
theorem c5_identify_read_only
    (detect : List Nat → Except Err (List FaceObservation)) (st : Catalog)
    (accountId : Nat) (file : Option (List Nat)) (k : Nat) (t : ℚ) :
    (identifyFaces detect st accountId file k t).2 = st := by
  cases file with
  | none => rfl
  | some bytes =>
      by_cases hb : bytes = []
      · simp [identifyFaces, hb]
      · simp only [identifyFaces, if_neg hb]
        cases detect bytes with
        | error e => rfl
        | ok obss => exact identifyFold_snd accountId k t obss [] st

/-- C8: an absent or empty upload makes `identifyFaces` fail with
`EmptyUpload`, whatever the detection engine would do (the validation
happens before the engine runs), and the catalog is untouched. -/
theorem c8_identify_empty_upload (st : Catalog) (accountId : Nat) (k : Nat)
    (t : ℚ) (file : Option (List Nat))
    (hfile : file = none ∨ file = some []) :
    ∀ detect, identifyFaces detect st accountId file k t
      = (.error .EmptyUpload, st) := by
  intro detect
  rcases hfile with rfl | rfl
  · rfl
  · simp [identifyFaces]

/-- Witness for C8 at a concrete catalog and absent file. -/
theorem c8_identify_empty_upload_witness :
    ((none : Option (List Nat)) = none ∨ (none : Option (List Nat)) = some [])
    ∧ ∀ detect, identifyFaces detect
        ⟨[], [], [], 0, 0, 0⟩ 7 none 10 (9/10) = (.error .EmptyUpload,
          ⟨[], [], [], 0, 0, 0⟩) :=
  ⟨Or.inl rfl,
   c8_identify_empty_upload ⟨[], [], [], 0, 0, 0⟩ 7 10 (9/10) none
     (Or.inl rfl)⟩

/-- The permissions named by the `@Authenticated` decorators of
`FaceController` (`src/server/src/controllers/face.controller.ts`). -/
inductive Permission where
  | FaceCreate
  | FaceRead
  | FaceUpdate
  | FaceDelete
deriving DecidableEq, Repr

/-- The routes of `FaceController`
(`src/server/src/controllers/face.controller.ts`). -/
inductive FaceRoute where
  | createFace
  | getFaces
  | identifyFaces
  | reassignFacesById
  | deleteFace
deriving DecidableEq, Repr

/-- The permission required by each route, read off the `@Authenticated({
permission })` decorator of the corresponding handler in
`src/server/src/controllers/face.controller.ts`. -/
def requiredPermission : FaceRoute → Permission
  | .createFace => .FaceCreate
  | .getFaces => .FaceRead
  | .identifyFaces => .FaceRead
  | .reassignFacesById => .FaceUpdate
  | .deleteFace => .FaceDelete

/-- The authentication guard: a request reaches the service only when the
authenticated context holds the route's required permission; otherwise it is
rejected before the service is invoked. -/
def dispatch {α : Type} (granted : List Permission) (r : FaceRoute)
    (service : FaceRoute → α) : Option α :=
  if requiredPermission r ∈ granted then some (service r) else none

/-- C10: every `FaceController` operation is guarded by its own permission —
`createFace` by `FaceCreate`, `getFaces` and `identifyFaces` by `FaceRead`,
`reassignFacesById` by `FaceUpdate`, `deleteFace` by `FaceDelete` — and a
request lacking the required permission is rejected without the service
being consulted (the outcome does not depend on the service at all). -/
theorem c10_controller_permissions :
    requiredPermission .createFace = .FaceCreate ∧
    requiredPermission .getFaces = .FaceRead ∧
    requiredPermission .identifyFaces = .FaceRead ∧
    requiredPermission .reassignFacesById = .FaceUpdate ∧
    requiredPermission .deleteFace = .FaceDelete ∧
    (∀ (α : Type) (granted : List Permission) (r : FaceRoute)
      (s1 s2 : FaceRoute → α), requiredPermission r ∉ granted →
        dispatch granted r s1 = none ∧
        dispatch granted r s1 = dispatch granted r s2) := by
  refine ⟨rfl, rfl, rfl, rfl, rfl, ?_⟩
  intro α granted r s1 s2 h
  rw [dispatch, if_neg h, dispatch, if_neg h]
  exact ⟨rfl, rfl⟩

/-- Witness for C10: a request with no permissions is rejected on every
route. -/
theorem c10_controller_permissions_witness :
    requiredPermission .deleteFace ∉ ([] : List Permission) ∧
    dispatch [] .deleteFace (fun _ => (0 : Nat)) = none :=
  ⟨by decide,
   (c10_controller_permissions.2.2.2.2.2 Nat [] .deleteFace
     (fun _ => 0) (fun _ => 1) (by decide)).1⟩

theorem insert_ok {D : Nat} {idx : List IndexEntry} {acc fid : Nat}
    {v : List ℚ} {idx' : List IndexEntry}
    (h : EmbeddingIndex.insert D idx acc fid v = .ok idx') :
    idx' = idx ++ [⟨acc, fid, v⟩] := by
  rw [EmbeddingIndex.insert] at h
  by_cases hl : v.length = D
  · rw [if_pos hl] at h
    injection h with h
    exact h.symm
  · rw [if_neg hl] at h
    exact absurd h (by simp)

theorem candidates_append_entry (idx : List IndexEntry) (acc : Nat)
    (q : List ℚ) (e : IndexEntry) (he : e.accountId = acc) :
    EmbeddingIndex.candidates (idx ++ [e]) acc q
      = EmbeddingIndex.candidates idx acc q
        ++ [⟨idx.length, e.faceId, simOf e.vec q⟩] := by
  rw [EmbeddingIndex.candidates, EmbeddingIndex.candidates,
    List.enum_append, List.filterMap_append]
  congr 1
  show List.filterMap _ [(idx.length, e)] = _
  simp only [List.filterMap_cons, List.filterMap_nil, he, if_pos]

theorem mem_of_getElem? {α : Type} {l : List α} {i : Nat} {a : α}
    (h : l[i]? = some a) : a ∈ l := by
  obtain ⟨hlt, he⟩ := List.getElem?_eq_some.mp h
  exact he ▸ List.getElem_mem hlt

theorem simLt_of_le_not_equiv {a : Sim} (hle : Sim.Le a simOne)
    (hne : ¬ Sim.Equiv a simOne) : Sim.Lt a simOne :=
  ⟨hle, fun h => hne ⟨hle, h⟩⟩

theorem head_of_sorted_max {L : List Cand} {c : Cand}
    (hsort : List.Pairwise CandLe L) (hmem : c ∈ L)
    (hbeats : ∀ x ∈ L, x ≠ c → ¬ CandLe x c) :
    ∃ rest, L = c :: rest := by
  cases L with
  | nil => cases hmem
  | cons h rest =>
      rcases List.mem_cons.mp hmem with rfl | hcr
      · exact ⟨rest, rfl⟩
      · by_cases hhc : h = c
        · subst hhc; exact ⟨rest, rfl⟩
        · have hle := (List.pairwise_cons.mp hsort).1 c hcr
          exact absurd hle (hbeats h (by simp) hhc)

/-- C7 (amended): inserting a nonzero vector `v` and then querying with `v`
itself ranks the inserted face first with similarity exactly `1`, provided
no earlier-inserted entry of the account already attains similarity `1`
with `v` (such an earlier entry would win the earliest-first tie-break of
§4.1; see the counterexample), the query asks for at least one result and
the threshold does not exceed `1`. -/
theorem c7_insert_query_self (D : Nat) (idx : List IndexEntry)
    (acc fid : Nat) (v : List ℚ) (k : Nat) (t : ℚ)
    (idx' : List IndexEntry)
    (hins : EmbeddingIndex.insert D idx acc fid v = .ok idx')
    (hv : 0 < dot v v) (hk : 1 ≤ k)
    (ht : Sim.Le (thresholdSim t) simOne)
    (hno : ∀ e ∈ idx, e.accountId = acc →
      ¬ Sim.Equiv (simOf e.vec v) simOne) :
    ∃ c rest, EmbeddingIndex.query_knnCands idx' acc v k t = c :: rest ∧
      c.faceId = fid ∧ Sim.Equiv c.sim simOne ∧
      (EmbeddingIndex.query_knn idx' acc v k t).head?
        = some (fid, c.sim) := by
  obtain rfl := insert_ok hins
  have hself : Sim.Equiv (simOf v v) simOne := simOf_self v hv
  have hcand := candidates_append_entry idx acc v ⟨acc, fid, v⟩ rfl
  have hpred : (fun c => decide (Sim.Le (thresholdSim t) c.sim))
      (⟨idx.length, fid, simOf v v⟩ : Cand) = true :=
    decide_eq_true (Sim.leTrans ht hself.2)
  have hsing : List.filter (fun c => decide (Sim.Le (thresholdSim t) c.sim))
      [(⟨idx.length, fid, simOf v v⟩ : Cand)]
      = [(⟨idx.length, fid, simOf v v⟩ : Cand)] := by
    rw [List.filter_cons, if_pos hpred, List.filter_nil]
  have hsort := (List.sorted_mergeSort candLe_trans_bool candLe_total_bool
    ((EmbeddingIndex.candidates idx acc v).filter
        (fun c => decide (Sim.Le (thresholdSim t) c.sim))
      ++ [(⟨idx.length, fid, simOf v v⟩ : Cand)])).imp
    (fun h => of_decide_eq_true h)
  have hLperm := List.mergeSort_perm
    ((EmbeddingIndex.candidates idx acc v).filter
        (fun c => decide (Sim.Le (thresholdSim t) c.sim))
      ++ [(⟨idx.length, fid, simOf v v⟩ : Cand)])
    (fun a b => decide (CandLe a b))
  have hcmem : (⟨idx.length, fid, simOf v v⟩ : Cand)
      ∈ ((EmbeddingIndex.candidates idx acc v).filter
          (fun c => decide (Sim.Le (thresholdSim t) c.sim))
        ++ [(⟨idx.length, fid, simOf v v⟩ : Cand)]).mergeSort
        (fun a b => decide (CandLe a b)) :=
    hLperm.symm.subset (List.mem_append_right _ (List.mem_singleton.mpr rfl))
  have hbeats : ∀ x ∈ ((EmbeddingIndex.candidates idx acc v).filter
        (fun c => decide (Sim.Le (thresholdSim t) c.sim))
      ++ [(⟨idx.length, fid, simOf v v⟩ : Cand)]).mergeSort
      (fun a b => decide (CandLe a b)),
      x ≠ (⟨idx.length, fid, simOf v v⟩ : Cand) →
      ¬ CandLe x (⟨idx.length, fid, simOf v v⟩ : Cand) := by
    intro x hxL hxne
    have hxF := hLperm.subset hxL
    rcases List.mem_append.mp hxF with hxf | hxs
    · obtain ⟨hxc, hxpred⟩ := List.mem_filter.mp hxf
      obtain ⟨e, hge, heid, heacc, hsim⟩ := mem_candidates hxc
      have hemem : e ∈ idx := mem_of_getElem? hge
      have hnex := hno e hemem heacc
      rw [← hsim] at hnex
      have hxle : Sim.Le x.sim simOne := by
        rw [hsim]; exact simOf_le_one e.vec v
      have hxlt : Sim.Lt x.sim simOne := simLt_of_le_not_equiv hxle hnex
      intro hcle
      rcases hcle with hlt | ⟨heq, hpos⟩
      · exact hxlt.2 (Sim.leTrans hself.2 hlt.1)
      · exact hnex ⟨hxlt.1, Sim.leTrans hself.2 heq.2⟩
    · exact absurd (List.mem_singleton.mp hxs) hxne
  obtain ⟨rest, hL⟩ := head_of_sorted_max hsort hcmem hbeats
  obtain ⟨k', rfl⟩ : ∃ k', k = k' + 1 := ⟨k - 1, by omega⟩
  have hqc : EmbeddingIndex.query_knnCands
      (idx ++ [(⟨acc, fid, v⟩ : IndexEntry)]) acc v (k' + 1) t
      = (⟨idx.length, fid, simOf v v⟩ : Cand) :: rest.take k' := by
    rw [EmbeddingIndex.query_knnCands, hcand, List.filter_append, hsing, hL,
      List.take_succ_cons]
  refine ⟨⟨idx.length, fid, simOf v v⟩, rest.take k', hqc, rfl, hself, ?_⟩
  rw [EmbeddingIndex.query_knn, hqc]
  rfl

/-- Counterexample to C7 as literally stated: on an index already holding an
identical earlier-inserted vector for the same account, inserting `v` and
querying with `v` does *not* return the newly inserted face first — the
earlier face wins the earliest-inserted-first tie-break of §4.1.  Face `1`
(inserted first) is ranked first; the freshly inserted face `2` is not. -/
theorem c7_counterexample :
    EmbeddingIndex.insert 1 [⟨7, 1, [1]⟩] 7 2 [1]
      = .ok [⟨7, 1, [1]⟩, ⟨7, 2, [1]⟩] ∧
    ∀ s, (EmbeddingIndex.query_knn [⟨7, 1, [1]⟩, ⟨7, 2, [1]⟩] 7 [1] 10
      0).head? ≠ some (2, s) := by
  constructor
  · rfl
  · have hq : (EmbeddingIndex.query_knn [⟨7, 1, [1]⟩, ⟨7, 2, [1]⟩] 7 [1] 10
        0).map Prod.fst = [1, 2] := by
      norm_num [EmbeddingIndex.query_knn, EmbeddingIndex.query_knnCands,
        EmbeddingIndex.candidates, List.enum, List.enumFrom, simOf, dot,
        Sim.Le, thresholdSim, CandLe, Sim.Lt, Sim.Equiv, List.mergeSort,
        List.filterMap, List.filter]
    intro s hcontra
    have h2 := congrArg List.head? hq
    rw [List.head?_map, hcontra] at h2
    simp at h2

/-- Witness instantiation of the amended C7 on a fresh index. -/
theorem c7_insert_query_self_witness :
    EmbeddingIndex.insert 1 [] 7 1 [1] = .ok [⟨7, 1, [1]⟩] ∧
    0 < dot [1] [1] ∧ (1 ≤ 10) ∧
    Sim.Le (thresholdSim 0) simOne ∧
    (∃ c rest, EmbeddingIndex.query_knnCands [⟨7, 1, [1]⟩] 7 [1] 10 0
        = c :: rest ∧ c.faceId = 1 ∧ Sim.Equiv c.sim simOne ∧
      (EmbeddingIndex.query_knn [⟨7, 1, [1]⟩] 7 [1] 10 0).head?
        = some (1, c.sim)) :=
  ⟨rfl, by norm_num [dot], by norm_num,
   by norm_num [Sim.Le, thresholdSim, simOne],
   c7_insert_query_self 1 [] 7 1 [1] 10 0 [⟨7, 1, [1]⟩] rfl
     (by norm_num [dot]) (by norm_num)
     (by norm_num [Sim.Le, thresholdSim, simOne]) (by simp)⟩

/-- A small concrete catalog used to witness the mutation theorems: one
unnamed person (100) with two faces, one named person (101) with a single
face, one empty person (102) on another account. -/
def demoCatalog : Catalog where
  faces :=
    [⟨1, 10, 7, ⟨0, 0, 1, 1⟩, [1], some 100, .detected, 0⟩,
     ⟨2, 10, 7, ⟨0, 0, 1, 1⟩, [1], some 100, .detected, 1⟩,
     ⟨3, 11, 7, ⟨0, 0, 1, 1⟩, [1], some 101, .manual, 2⟩]
  persons :=
    [⟨100, 7, none, some 1, 2⟩,
     ⟨101, 7, some "Ada", some 3, 1⟩,
     ⟨102, 8, none, none, 0⟩]
  index := [⟨7, 1, [1]⟩, ⟨7, 2, [1]⟩, ⟨7, 3, [1]⟩]
  nextFaceId := 4
  nextPersonId := 200
  dim := 1

/-- Witness for C1: the invariant hypotheses hold on the demo catalog and the
preservation statement follows for it. -/
theorem c1_invariant_after_mutations_witness :
    WF demoCatalog ∧ Consistent demoCatalog ∧
    ((∀ fid pid st', PersonClusterManager.assign demoCatalog fid pid
        = .ok st' → Consistent st') ∧
     (∀ fid pid p' st',
       PersonClusterManager.reassign demoCatalog fid pid = .ok (p', st') →
       Consistent st') ∧
     (∀ fid st', PersonClusterManager.detach demoCatalog fid = .ok st' →
       Consistent st') ∧
     (∀ fid acc p' st',
       PersonClusterManager.create_person_from_face demoCatalog fid acc
         = .ok (p', st') → Consistent st') ∧
     (∀ fid force st', FaceStore.deleteFace demoCatalog fid force = .ok st' →
       Consistent st')) :=
  ⟨by decide, by decide,
   c1_invariant_after_mutations demoCatalog (by decide) (by decide)⟩

/-- Witness for C3 at the demo catalog: face 3 is the sole face of the named
person 101. -/
theorem c3_delete_orphan_policy_witness :
    WF demoCatalog ∧
    findFace demoCatalog 3
      = some ⟨3, 11, 7, ⟨0, 0, 1, 1⟩, [1], some 101, .manual, 2⟩ ∧
    ((∀ o p,
      (⟨3, 11, 7, ⟨0, 0, 1, 1⟩, [1], some 101, .manual, 2⟩ : Face).personId
          = some o →
        findPerson demoCatalog o = some p → p.name ≠ none → p.faceCount = 1 →
        FaceStore.deleteFace demoCatalog 3 false
          = .error .PersonWouldBeOrphaned) ∧
     (∃ st', FaceStore.deleteFace demoCatalog 3 true = .ok st' ∧
       findFace st' 3 = none ∧
       (∀ o p,
         (⟨3, 11, 7, ⟨0, 0, 1, 1⟩, [1], some 101, .manual, 2⟩ : Face).personId
             = some o →
           findPerson demoCatalog o = some p → p.faceCount = 1 →
           ((p.name = none → ∀ q ∈ st'.persons, q.personId ≠ o) ∧
            (p.name ≠ none →
              ∃ q ∈ st'.persons, q.personId = o ∧ q.faceCount = 0))))) :=
  ⟨by decide, rfl,
   c3_delete_orphan_policy demoCatalog 3
     ⟨3, 11, 7, ⟨0, 0, 1, 1⟩, [1], some 101, .manual, 2⟩ (by decide) rfl⟩

/-- Witness for C4 at the demo catalog: face 1 is on account 7, person 102 on
account 8. -/
theorem c4_reassign_cross_account_witness :
    findFace demoCatalog 1
      = some ⟨1, 10, 7, ⟨0, 0, 1, 1⟩, [1], some 100, .detected, 0⟩ ∧
    findPerson demoCatalog 102 = some ⟨102, 8, none, none, 0⟩ ∧
    ((reassignRun demoCatalog 1 102).2 = .error .CrossAccountAssignment ∧
     (reassignRun demoCatalog 1 102).1 = demoCatalog ∧
     findFace (reassignRun demoCatalog 1 102).1 1
       = some ⟨1, 10, 7, ⟨0, 0, 1, 1⟩, [1], some 100, .detected, 0⟩ ∧
     findPerson (reassignRun demoCatalog 1 102).1 102
       = some ⟨102, 8, none, none, 0⟩) :=
  ⟨rfl, rfl,
   c4_reassign_cross_account demoCatalog 1 102
     ⟨1, 10, 7, ⟨0, 0, 1, 1⟩, [1], some 100, .detected, 0⟩
     ⟨102, 8, none, none, 0⟩ rfl rfl (by decide)⟩

/-- Witness for C6 at the demo catalog: force-deleting face 3. -/
theorem c6_delete_removes_index_entry_witness :
    IndexWF demoCatalog ∧
    FaceStore.deleteFace demoCatalog 3 true = .ok
      ⟨[⟨1, 10, 7, ⟨0, 0, 1, 1⟩, [1], some 100, .detected, 0⟩,
        ⟨2, 10, 7, ⟨0, 0, 1, 1⟩, [1], some 100, .detected, 1⟩],
       [⟨100, 7, none, some 1, 2⟩, ⟨101, 7, some "Ada", some 3, 0⟩,
        ⟨102, 8, none, none, 0⟩],
       [⟨7, 1, [1]⟩, ⟨7, 2, [1]⟩], 4, 200, 1⟩ ∧
    ((∀ e ∈ (⟨[⟨1, 10, 7, ⟨0, 0, 1, 1⟩, [1], some 100, .detected, 0⟩,
        ⟨2, 10, 7, ⟨0, 0, 1, 1⟩, [1], some 100, .detected, 1⟩],
       [⟨100, 7, none, some 1, 2⟩, ⟨101, 7, some "Ada", some 3, 0⟩,
        ⟨102, 8, none, none, 0⟩],
       [⟨7, 1, [1]⟩, ⟨7, 2, [1]⟩], 4, 200, 1⟩ : Catalog).index,
        e.faceId ≠ 3) ∧
     (⟨[⟨1, 10, 7, ⟨0, 0, 1, 1⟩, [1], some 100, .detected, 0⟩,
        ⟨2, 10, 7, ⟨0, 0, 1, 1⟩, [1], some 100, .detected, 1⟩],
       [⟨100, 7, none, some 1, 2⟩, ⟨101, 7, some "Ada", some 3, 0⟩,
        ⟨102, 8, none, none, 0⟩],
       [⟨7, 1, [1]⟩, ⟨7, 2, [1]⟩], 4, 200, 1⟩ : Catalog).index.length + 1
       = demoCatalog.index.length ∧
     IndexWF ⟨[⟨1, 10, 7, ⟨0, 0, 1, 1⟩, [1], some 100, .detected, 0⟩,
        ⟨2, 10, 7, ⟨0, 0, 1, 1⟩, [1], some 100, .detected, 1⟩],
       [⟨100, 7, none, some 1, 2⟩, ⟨101, 7, some "Ada", some 3, 0⟩,
        ⟨102, 8, none, none, 0⟩],
       [⟨7, 1, [1]⟩, ⟨7, 2, [1]⟩], 4, 200, 1⟩) :=
  ⟨by decide, rfl,
   c6_delete_removes_index_entry demoCatalog 3 true
     ⟨[⟨1, 10, 7, ⟨0, 0, 1, 1⟩, [1], some 100, .detected, 0⟩,
       ⟨2, 10, 7, ⟨0, 0, 1, 1⟩, [1], some 100, .detected, 1⟩],
      [⟨100, 7, none, some 1, 2⟩, ⟨101, 7, some "Ada", some 3, 0⟩,
       ⟨102, 8, none, none, 0⟩],
      [⟨7, 1, [1]⟩, ⟨7, 2, [1]⟩], 4, 200, 1⟩ (by decide) rfl⟩
